import Mathlib

/-! # semantika: parsing, printing and ordering of MAJOR.MINOR.PATCH versions

A shallow embedding of `semantika.go` together with the parts of the Go standard
library it calls (`strings.Split`, `strconv.ParseUint`, `fmt.Sprintf("%d")`).

Conventions of the embedding:

* a Go `string` is an immutable sequence of bytes, modelled as `List Nat`; a byte of
  a real Go string is below 256, and no definition or theorem here needs that bound;
* a `uint64` is a `Nat` below `2 ^ 64`; arithmetic that can wrap in the source is
  written with an explicit `% 2 ^ 64`;
* the `int8` returned by `Compare` is an `Int` (only -1, 0 and 1 ever occur);
* a Go `error` is modelled by its message, and a `(*Version, error)` result by
  `Except GoString Version`.
-/

namespace Semantika

/-- A Go string, as its sequence of bytes. -/
abbrev GoString := List Nat

/-- The bytes (UTF-8) of a string literal, used to write Go string constants. -/
def str (s : String) : GoString := s.toUTF8.data.toList.map UInt8.toNat

/-- The byte of the separator character of a version string. -/
def dot : Nat := 46

/-! ## `strings.Split` -/

namespace strings

/-- `strings.Count(s, sep)` for a one-byte separator: the number of occurrences. -/
def Count (s : GoString) (sep : Nat) : Nat := s.count sep

/-- `strings.Index(s, sep)` for a one-byte separator: the position of the first
occurrence, `none` standing for the source's `-1`. -/
def Index : GoString → Nat → Option Nat
  | [], _ => none
  | c :: cs, sep => if c = sep then some 0 else (Index cs sep).map (· + 1)

/-- The loop of `genSplit`: `for i < n { m := Index(s, sep); if m < 0 { break };
a[i] = s[:m]; s = s[m+len(sep):]; i++ }; a[i] = s`. The first argument is `n - i`. -/
def genSplitLoop : Nat → GoString → Nat → List GoString
  | 0, s, _ => [s]
  | k + 1, s, sep =>
    match Index s sep with
    | none => [s]
    | some m => s.take m :: genSplitLoop k (s.drop (m + 1)) sep

/-- `genSplit(s, sep, 0, -1)` for a one-byte separator: `n` is `Count(s, sep) + 1`,
capped at `len(s) + 1`, and the loop runs while `i < n - 1`. -/
def genSplit (s : GoString) (sep : Nat) : List GoString :=
  let n := Count s sep + 1
  let n := if n > s.length + 1 then s.length + 1 else n
  genSplitLoop (n - 1) s sep

/-- `strings.Split(s, sep)` for a one-byte separator. -/
def Split (s : GoString) (sep : Nat) : List GoString := genSplit s sep

end strings

/-! ## `strconv.ParseUint` at base 10, bit size 64 -/

namespace strconv

/-- The two causes of a `*NumError` that `ParseUint` reports. -/
inductive NumError where
  | ErrSyntax
  | ErrRange
  deriving DecidableEq

/-- The largest `uint64`. -/
def maxUint64 : Nat := 2 ^ 64 - 1

/-- The smallest number such that `cutoff * 10 > maxUint64`. -/
def cutoff : Nat := maxUint64 / 10 + 1

/-- `maxVal := uint64(1)<<uint(bitSize) - 1` at bit size 64 (the shift wraps to 0 and
the subtraction wraps to the largest `uint64`). -/
def maxVal : Nat := maxUint64

/-- `lower(c)`, which is `c | ('x' - 'X')`. -/
def lower (c : Nat) : Nat := c ||| 32

/-- The `switch` that turns a byte into a digit value: decimal digits, then letters
(as digits from ten on); `none` is the `default` branch. The underscore branch needs
base 0 and is never taken at base 10. -/
def digitVal (c : Nat) : Option Nat :=
  if 48 ≤ c ∧ c ≤ 57 then some (c - 48)
  else if 97 ≤ lower c ∧ lower c ≤ 122 then some (lower c - 97 + 10)
  else none

/-- The loop of `ParseUint` over the bytes of the string, from the accumulator `n`.
The result is the pair (value, error) the source returns. -/
def parseLoop : GoString → Nat → Nat × Option NumError
  | [], n => (n, none)
  | c :: cs, n =>
    match digitVal c with
    | none => (0, some NumError.ErrSyntax)
    | some d =>
      if d ≥ 10 then (0, some NumError.ErrSyntax)
      else if n ≥ cutoff then (maxVal, some NumError.ErrRange)
      else
        let n10 := n * 10 % 2 ^ 64
        let n1 := (n10 + d) % 2 ^ 64
        if n1 < n10 ∨ n1 > maxVal then (maxVal, some NumError.ErrRange)
        else parseLoop cs n1

/-- `strconv.ParseUint(s, 10, 64)`: the pair (value, error). -/
def ParseUint (s : GoString) : Nat × Option NumError :=
  if s = [] then (0, some NumError.ErrSyntax) else parseLoop s 0

end strconv

/-! ## `fmt` -/

namespace fmt

/-- The base-10 branch of `fmtInteger` for an unsigned argument: digits are written
from the right into the buffer, `for u >= 10 { next := u / 10;
buf[i] = byte('0' + u - next*10); u = next }`, then `buf[i] = digits[u]`. The sum and
the difference are taken in `uint64`, the conversion to `byte` keeps the low 8 bits. -/
def fmtInteger (u : Nat) (buf : GoString) : GoString :=
  if 10 ≤ u then
    let next := u / 10
    fmtInteger next
      (((48 + u) % 2 ^ 64 + 2 ^ 64 - next * 10 % 2 ^ 64) % 2 ^ 64 % 256 :: buf)
  else (48 + u) :: buf
termination_by u
decreasing_by omega

/-- The verb `%d` applied to a `uint64`. -/
def fmtD (u : Nat) : GoString := fmtInteger u []

end fmt

/-! ## `semantika.go` -/

/-- Version stores the three version numbers; each field is a `uint64`. -/
structure Version where
  Major : Nat
  Minor : Nat
  Patch : Nat
  deriving DecidableEq

/-- The range invariant of the field type `uint64`. -/
def Version.InRange (v : Version) : Prop :=
  v.Major < 2 ^ 64 ∧ v.Minor < 2 ^ 64 ∧ v.Patch < 2 ^ 64

instance (v : Version) : Decidable v.InRange := by
  unfold Version.InRange; exact inferInstance

/-- New takes a version string in the format "Major.Minor.Patch" and returns the
parsed version, or the error message. -/
def New (versionString : GoString) : Except GoString Version :=
  match strings.Split versionString dot with
  | [p0, p1, p2] =>
    match strconv.ParseUint p0 with
    | (_, some _) => .error (str "invalid major version: " ++ p0)
    | (major, none) =>
      match strconv.ParseUint p1 with
      | (_, some _) => .error (str "invalid minor version: " ++ p1)
      | (minor, none) =>
        match strconv.ParseUint p2 with
        | (_, some _) => .error (str "invalid patch version: " ++ p2)
        | (patch, none) => .ok { Major := major, Minor := minor, Patch := patch }
  | _ => .error (str "invalid version string: " ++ versionString)

/-- String returns the representation "Major.Minor.Patch":
`fmt.Sprintf("%d.%d.%d", v.Major, v.Minor, v.Patch)`. -/
def Version.String (v : Version) : GoString :=
  fmt.fmtD v.Major ++ dot :: (fmt.fmtD v.Minor ++ dot :: fmt.fmtD v.Patch)

/-- Compare returns -1 if the reference version is older, 0 if they are equal, and 1
if the reference version is newer. -/
def Version.Compare (v1 v2 : Version) : Int :=
  if v1.Major ≠ v2.Major then
    if v1.Major < v2.Major then -1 else 1
  else if v1.Minor ≠ v2.Minor then
    if v1.Minor < v2.Minor then -1 else 1
  else if v1.Patch ≠ v2.Patch then
    if v1.Patch < v2.Patch then -1 else 1
  else 0

/-- OlderThan: `v1.Compare(v2) == -1`. -/
def Version.OlderThan (v1 v2 : Version) : Bool :=
  v1.Compare v2 == -1

/-- OlderThanOrEquals: `res == -1 || res == 0`. -/
def Version.OlderThanOrEquals (v1 v2 : Version) : Bool :=
  let res := v1.Compare v2
  res == -1 || res == 0

/-- Equals: `v1.Compare(v2) == 0`. -/
def Version.Equals (v1 v2 : Version) : Bool :=
  v1.Compare v2 == 0

/-- NewerThanOrEquals: `res == 0 || res == 1`. -/
def Version.NewerThanOrEquals (v1 v2 : Version) : Bool :=
  let res := v1.Compare v2
  res == 0 || res == 1

/-- NewerThan: `v1.Compare(v2) == 1`. -/
def Version.NewerThan (v1 v2 : Version) : Bool :=
  v1.Compare v2 == 1


/-- Equality of results is decidable when equality of errors and of values is. -/
instance instDecidableEqExcept {ε α : Type} [DecidableEq ε] [DecidableEq α] :
    DecidableEq (Except ε α)
  | .ok a, .ok b => if h : a = b then isTrue (by rw [h]) else isFalse (by intro h2; cases h2; exact h rfl)
  | .error a, .error b => if h : a = b then isTrue (by rw [h]) else isFalse (by intro h2; cases h2; exact h rfl)
  | .ok _, .error _ => isFalse (by intro h; cases h)
  | .error _, .ok _ => isFalse (by intro h; cases h)

/-! ## Vocabulary of the specification -/

/-- An ASCII decimal digit, '0' to '9'. -/
def IsDigit (c : Nat) : Prop := 48 ≤ c ∧ c ≤ 57

instance (c : Nat) : Decidable (IsDigit c) := by
  unfold IsDigit; exact inferInstance

/-- The decimal value of the digits of `s` read after a prefix of value `n`. -/
def decFrom (n : Nat) (s : GoString) : Nat :=
  s.foldl (fun acc c => acc * 10 + (c - 48)) n

/-- The decimal value of a digit string. -/
def decVal (s : GoString) : Nat := decFrom 0 s

/-- A non-empty string of ASCII digits. -/
def DigitString (s : GoString) : Prop := s ≠ [] ∧ ∀ c ∈ s, IsDigit c

instance (s : GoString) : Decidable (DigitString s) := by
  unfold DigitString; exact inferInstance

/-- The version string with the three given segments, "a.b.c". -/
def dotted (a b c : GoString) : GoString := a ++ dot :: (b ++ dot :: c)

/-- A run of `k` characters '0'. -/
def zeros (k : Nat) : GoString := List.replicate k 48

/-- The base-10 rendering of `n` with no leading zeros, and "0" for zero. -/
def dec (n : Nat) : GoString :=
  if n = 0 then [48] else (Nat.digits 10 n).reverse.map (48 + ·)

/-- The triple (Major, Minor, Patch) of a version, ordered lexicographically. -/
def Version.key (v : Version) : ℕ ×ₗ ℕ ×ₗ ℕ :=
  toLex (v.Major, toLex (v.Minor, v.Patch))

/-- A segment that `New` takes as a number: a non-empty string of ASCII digits whose
decimal value fits in a `uint64`. -/
def ValidSegment (s : GoString) : Prop := DigitString s ∧ decVal s ≤ 2 ^ 64 - 1

instance (s : GoString) : Decidable (ValidSegment s) := by
  unfold ValidSegment; exact inferInstance

/-- A numeric identifier of Semantic Versioning 2.0.0: "0", or a non-empty string of
ASCII digits that does not start with '0'. -/
def SemVerNumeric (s : GoString) : Prop :=
  s = [48] ∨ (DigitString s ∧ s.head? ≠ some 48)

instance (s : GoString) : Decidable (SemVerNumeric s) := by
  unfold SemVerNumeric; exact inferInstance

/-! ## Facts about `strings.Split` -/

theorem Index_eq_none {s : GoString} {sep : Nat} (h : sep ∉ s) : strings.Index s sep = none := by
  induction s with
  | nil => rfl
  | cons c cs ih =>
    simp only [List.mem_cons, not_or] at h
    have hc : ¬ c = sep := fun e => h.1 e.symm
    simp [strings.Index, hc, ih h.2]

theorem Index_append {p : GoString} {sep : Nat} (r : GoString) (h : sep ∉ p) :
    strings.Index (p ++ sep :: r) sep = some p.length := by
  induction p with
  | nil => simp [strings.Index]
  | cons c cs ih =>
    simp only [List.mem_cons, not_or] at h
    have hc : ¬ c = sep := fun e => h.1 e.symm
    simp [strings.Index, hc, ih h.2]

theorem exists_first_sep {s : GoString} {sep : Nat} (h : sep ∈ s) :
    ∃ p r, s = p ++ sep :: r ∧ sep ∉ p := by
  induction s with
  | nil => simp at h
  | cons c cs ih =>
    by_cases hc : c = sep
    · exact ⟨[], cs, by simp [hc], by simp⟩
    · have h2 : sep ∈ cs := by
        rcases List.mem_cons.1 h with e | e
        · exact absurd e.symm hc
        · exact e
      obtain ⟨p, r, e, hp⟩ := ih h2
      refine ⟨c :: p, r, by simp [e], ?_⟩
      simp only [List.mem_cons, not_or]
      exact ⟨fun e2 => hc e2.symm, hp⟩

theorem genSplitLoop_of_not_mem {p : GoString} {sep : Nat} (k : Nat) (h : sep ∉ p) :
    strings.genSplitLoop k p sep = [p] := by
  cases k with
  | zero => rfl
  | succ k => simp [strings.genSplitLoop, Index_eq_none h]

theorem genSplitLoop_append {p : GoString} {sep : Nat} (k : Nat) (r : GoString) (h : sep ∉ p) :
    strings.genSplitLoop (k + 1) (p ++ sep :: r) sep = p :: strings.genSplitLoop k r sep := by
  simp [strings.genSplitLoop, Index_append r h]

theorem Split_eq_loop (s : GoString) (sep : Nat) :
    strings.Split s sep = strings.genSplitLoop (s.count sep) s sep := by
  have h : s.count sep ≤ s.length := List.count_le_length sep s
  simp only [strings.Split, strings.genSplit, strings.Count]
  rw [if_neg (by omega)]
  rfl

theorem Split_of_not_mem {p : GoString} {sep : Nat} (h : sep ∉ p) :
    strings.Split p sep = [p] := by
  rw [Split_eq_loop, genSplitLoop_of_not_mem _ h]

theorem Split_append {p : GoString} {sep : Nat} (r : GoString) (h : sep ∉ p) :
    strings.Split (p ++ sep :: r) sep = p :: strings.Split r sep := by
  rw [Split_eq_loop, Split_eq_loop]
  have hc : (p ++ sep :: r).count sep = r.count sep + 1 := by
    simp [List.count_append, List.count_eq_zero_of_not_mem h]
  rw [hc, genSplitLoop_append _ _ h]

theorem Split_length_aux (sep : Nat) :
    ∀ (n : Nat) (s : GoString), s.length = n →
      (strings.Split s sep).length = s.count sep + 1 := by
  intro n
  induction n using Nat.strong_induction_on with
  | _ n ih =>
    intro s hn
    by_cases hm : sep ∈ s
    · obtain ⟨p, r, e, hp⟩ := exists_first_sep hm
      subst e
      rw [Split_append r hp]
      have hlen : r.length < n := by rw [← hn]; simp; omega
      have := ih r.length hlen r rfl
      simp [List.count_append, List.count_eq_zero_of_not_mem hp, this]
    · rw [Split_of_not_mem hm, List.count_eq_zero_of_not_mem hm]
      rfl

theorem Split_length (s : GoString) (sep : Nat) :
    (strings.Split s sep).length = s.count sep + 1 :=
  Split_length_aux sep s.length s rfl

theorem Split_three {a b c : GoString} {sep : Nat} (ha : sep ∉ a) (hb : sep ∉ b) (hc : sep ∉ c) :
    strings.Split (a ++ sep :: (b ++ sep :: c)) sep = [a, b, c] := by
  rw [Split_append _ ha, Split_append _ hb, Split_of_not_mem hc]

theorem not_mem_of_count_three {a b c : GoString} {sep : Nat}
    (h : (a ++ sep :: (b ++ sep :: c)).count sep = 2) : sep ∉ a ∧ sep ∉ b ∧ sep ∉ c := by
  simp only [List.count_append, List.count_cons_self] at h
  refine ⟨?_, ?_, ?_⟩ <;> (apply List.count_eq_zero.1; omega)

/-! ## Facts about `strconv.ParseUint` -/

theorem decFrom_cons (n c : Nat) (cs : GoString) :
    decFrom n (c :: cs) = decFrom (n * 10 + (c - 48)) cs := rfl

theorem decFrom_append (n : Nat) (s t : GoString) :
    decFrom n (s ++ t) = decFrom (decFrom n s) t := by
  simp [decFrom, List.foldl_append]

theorem le_decFrom (s : GoString) : ∀ n, n ≤ decFrom n s := by
  induction s with
  | nil => intro n; exact Nat.le_refl _
  | cons c cs ih =>
    intro n
    rw [decFrom_cons]
    have := ih (n * 10 + (c - 48))
    omega

theorem digitVal_of_digit {c : Nat} (h : IsDigit c) : strconv.digitVal c = some (c - 48) := by
  unfold IsDigit at h
  simp [strconv.digitVal, h]

theorem digitVal_of_not_digit {c : Nat} (h : ¬ IsDigit c) :
    strconv.digitVal c = none ∨ ∃ d, strconv.digitVal c = some d ∧ 10 ≤ d := by
  unfold IsDigit at h
  unfold strconv.digitVal
  rw [if_neg h]
  by_cases hl : 97 ≤ strconv.lower c ∧ strconv.lower c ≤ 122
  · rw [if_pos hl]
    exact Or.inr ⟨_, rfl, by omega⟩
  · rw [if_neg hl]
    exact Or.inl rfl

theorem parseLoop_digits (cs : GoString) :
    ∀ n, (∀ c ∈ cs, IsDigit c) → decFrom n cs < 2 ^ 64 →
      strconv.parseLoop cs n = (decFrom n cs, none) := by
  induction cs with
  | nil => intro n _ _; rfl
  | cons c cs ih =>
    intro n hd hlt
    have hc : IsDigit c := hd c (List.mem_cons_self _ _)
    have hcs : ∀ x ∈ cs, IsDigit x := fun x hx => hd x (List.mem_cons_of_mem _ hx)
    rw [decFrom_cons] at hlt
    have hle := le_decFrom cs (n * 10 + (c - 48))
    have hlt2 : n * 10 + (c - 48) < 2 ^ 64 := lt_of_le_of_lt hle hlt
    unfold IsDigit at hc
    have h1 : ¬ (c - 48 ≥ 10) := by omega
    have h2 : ¬ (n ≥ strconv.cutoff) := by
      simp only [strconv.cutoff, strconv.maxUint64]; norm_num at hlt2 ⊢; omega
    have h3 : n * 10 % 2 ^ 64 = n * 10 := Nat.mod_eq_of_lt (by omega)
    have h4 : (n * 10 + (c - 48)) % 2 ^ 64 = n * 10 + (c - 48) := Nat.mod_eq_of_lt hlt2
    have h5 : ¬ (n * 10 + (c - 48) < n * 10 ∨ n * 10 + (c - 48) > strconv.maxVal) := by
      simp only [strconv.maxVal, strconv.maxUint64]; norm_num at hlt2 ⊢; omega
    rw [strconv.parseLoop, digitVal_of_digit ⟨hc.1, hc.2⟩]
    simp only [h1, h2, h3, h4, h5, if_false]
    rw [decFrom_cons]
    exact ih _ hcs hlt

theorem parseLoop_not_digit (cs : GoString) :
    ∀ n, (∃ c ∈ cs, ¬ IsDigit c) → ∃ v e, strconv.parseLoop cs n = (v, some e) := by
  induction cs with
  | nil => intro n h; simp at h
  | cons c cs ih =>
    intro n h
    by_cases hc : IsDigit c
    · have hcs : ∃ x ∈ cs, ¬ IsDigit x := by
        obtain ⟨x, hx, hnx⟩ := h
        rcases List.mem_cons.1 hx with e | e
        · exact absurd (e ▸ hc) hnx
        · exact ⟨x, e, hnx⟩
      rw [strconv.parseLoop, digitVal_of_digit hc]
      simp only []
      split_ifs
      · exact ⟨_, _, rfl⟩
      · exact ⟨_, _, rfl⟩
      · exact ⟨_, _, rfl⟩
      · exact ih _ hcs
    · rcases digitVal_of_not_digit hc with e | ⟨d, e, hd⟩
      · rw [strconv.parseLoop, e]; exact ⟨_, _, rfl⟩
      · rw [strconv.parseLoop, e]
        simp only [ge_iff_le, hd, if_true]
        exact ⟨_, _, rfl⟩

theorem ParseUint_nil : strconv.ParseUint [] = (0, some strconv.NumError.ErrSyntax) := rfl

theorem ParseUint_digits {s : GoString} (hs : DigitString s) (hv : decVal s < 2 ^ 64) :
    strconv.ParseUint s = (decVal s, none) := by
  unfold strconv.ParseUint
  rw [if_neg hs.1]
  exact parseLoop_digits s 0 hs.2 hv

theorem ParseUint_not_digit {s : GoString} (h : ∃ c ∈ s, ¬ IsDigit c) :
    ∃ v e, strconv.ParseUint s = (v, some e) := by
  unfold strconv.ParseUint
  split_ifs
  · exact ⟨_, _, rfl⟩
  · exact parseLoop_not_digit s 0 h

theorem parseLoop_zeros (k : Nat) (s : GoString) :
    strconv.parseLoop (zeros k ++ s) 0 = strconv.parseLoop s 0 := by
  induction k with
  | zero => rfl
  | succ k ih =>
    have : zeros (k + 1) ++ s = 48 :: (zeros k ++ s) := by
      simp [zeros, List.replicate_succ]
    rw [this, strconv.parseLoop]
    have hd : strconv.digitVal 48 = some 0 := by decide
    have hcut : ¬ (0 ≥ strconv.cutoff) := by decide
    simp only [hd]
    rw [if_neg (by decide), if_neg hcut]
    simp only [Nat.zero_mul, Nat.zero_mod, Nat.add_zero]
    rw [if_neg (by decide)]
    exact ih

theorem ParseUint_zeros (k : Nat) {s : GoString} (hs : s ≠ []) :
    strconv.ParseUint (zeros k ++ s) = strconv.ParseUint s := by
  unfold strconv.ParseUint
  have h : zeros k ++ s ≠ [] := by simp [hs]
  rw [if_neg h, if_neg hs]
  exact parseLoop_zeros k s

/-! ## Facts about `New` -/

theorem not_mem_dot_of_digits {s : GoString} (h : ∀ c ∈ s, IsDigit c) : dot ∉ s := by
  intro hm
  have := h dot hm
  revert this
  decide

theorem New_dotted {a b c : GoString} (ha : dot ∉ a) (hb : dot ∉ b) (hc : dot ∉ c) :
    New (dotted a b c) =
      match strconv.ParseUint a with
      | (_, some _) => .error (str "invalid major version: " ++ a)
      | (major, none) =>
        match strconv.ParseUint b with
        | (_, some _) => .error (str "invalid minor version: " ++ b)
        | (minor, none) =>
          match strconv.ParseUint c with
          | (_, some _) => .error (str "invalid patch version: " ++ c)
          | (patch, none) => .ok { Major := major, Minor := minor, Patch := patch } := by
  simp only [New, dotted, Split_three ha hb hc]

theorem New_ok {a b c : GoString} {x y z : Nat} (ha : dot ∉ a) (hb : dot ∉ b) (hc : dot ∉ c)
    (pa : strconv.ParseUint a = (x, none)) (pb : strconv.ParseUint b = (y, none))
    (pc : strconv.ParseUint c = (z, none)) :
    New (dotted a b c) = .ok ⟨x, y, z⟩ := by
  rw [New_dotted ha hb hc, pa, pb, pc]

theorem New_error {a b c : GoString} (ha : dot ∉ a) (hb : dot ∉ b) (hc : dot ∉ c)
    (h : (∃ v e, strconv.ParseUint a = (v, some e)) ∨ (∃ v e, strconv.ParseUint b = (v, some e)) ∨
      (∃ v e, strconv.ParseUint c = (v, some e))) :
    ∃ msg, New (dotted a b c) = .error msg := by
  rw [New_dotted ha hb hc]
  rcases pa : strconv.ParseUint a with ⟨x, _ | ea⟩
  · rcases pb : strconv.ParseUint b with ⟨y, _ | eb⟩
    · rcases pc : strconv.ParseUint c with ⟨z, _ | ec⟩
      · rcases h with ⟨v, e, h⟩ | ⟨v, e, h⟩ | ⟨v, e, h⟩
        · rw [pa] at h; cases h
        · rw [pb] at h; cases h
        · rw [pc] at h; cases h
      · exact ⟨_, rfl⟩
    · exact ⟨_, rfl⟩
  · exact ⟨_, rfl⟩

/-! ## Facts about `%d` -/

theorem dec_small {n : Nat} (h : n < 10) : dec n = [48 + n] := by
  unfold dec
  split_ifs with h0
  · simp [h0]
  · rw [Nat.digits_of_lt 10 n h0 h]; rfl

theorem dec_step {n : Nat} (h : 10 ≤ n) : dec n = dec (n / 10) ++ [48 + n % 10] := by
  have h0 : n ≠ 0 := by omega
  have h1 : n / 10 ≠ 0 := by omega
  unfold dec
  rw [if_neg h0, if_neg h1, Nat.digits_def' (by decide) (by omega)]
  simp

theorem fmtInteger_small {u : Nat} (h : u < 10) (buf : GoString) :
    fmt.fmtInteger u buf = (48 + u) :: buf := by
  rw [fmt.fmtInteger, if_neg (by omega)]

theorem fmtInteger_step {u : Nat} (h : 10 ≤ u) (buf : GoString) :
    fmt.fmtInteger u buf = fmt.fmtInteger (u / 10) ((48 + u % 10) :: buf) := by
  rw [fmt.fmtInteger, if_pos h]
  have e : ((48 + u) % 2 ^ 64 + 2 ^ 64 - u / 10 * 10 % 2 ^ 64) % 2 ^ 64 % 256 = 48 + u % 10 := by
    norm_num
    omega
  simp only [e]

theorem fmtInteger_eq_dec : ∀ (u : Nat) (buf : GoString), fmt.fmtInteger u buf = dec u ++ buf := by
  intro u
  induction u using Nat.strong_induction_on with
  | _ u ih =>
    intro buf
    by_cases h : 10 ≤ u
    · rw [fmtInteger_step h, ih (u / 10) (by omega), dec_step h]
      simp
    · rw [fmtInteger_small (by omega), dec_small (by omega)]
      rfl

theorem fmtD_eq_dec (u : Nat) : fmt.fmtD u = dec u := by
  rw [fmt.fmtD, fmtInteger_eq_dec u]; simp

theorem dec_ne_nil (n : Nat) : dec n ≠ [] := by
  by_cases h : 10 ≤ n
  · rw [dec_step h]; simp
  · rw [dec_small (by omega)]; simp

theorem dec_isDigit : ∀ (n : Nat), ∀ c ∈ dec n, IsDigit c := by
  intro n
  induction n using Nat.strong_induction_on with
  | _ n ih =>
    intro c hc
    by_cases h : 10 ≤ n
    · rw [dec_step h] at hc
      rcases List.mem_append.1 hc with hc | hc
      · exact ih (n / 10) (by omega) c hc
      · simp only [List.mem_singleton] at hc
        unfold IsDigit; omega
    · rw [dec_small (by omega)] at hc
      simp only [List.mem_singleton] at hc
      unfold IsDigit; omega

theorem dec_digitString (n : Nat) : DigitString (dec n) := ⟨dec_ne_nil n, dec_isDigit n⟩

theorem decVal_dec : ∀ (n : Nat), decVal (dec n) = n := by
  intro n
  induction n using Nat.strong_induction_on with
  | _ n ih =>
    by_cases h : 10 ≤ n
    · rw [dec_step h, decVal, decFrom_append]
      have := ih (n / 10) (by omega)
      rw [decVal] at this
      rw [this]
      simp only [decFrom, List.foldl_cons, List.foldl_nil]
      omega
    · rw [dec_small (by omega)]
      simp only [decVal, decFrom, List.foldl_cons, List.foldl_nil]
      omega

/-- The first character of the rendering of a positive number is not '0'. -/
theorem dec_head_ne_zero : ∀ (n : Nat), 0 < n → (dec n).head? ≠ some 48 := by
  intro n
  induction n using Nat.strong_induction_on with
  | _ n ih =>
    intro hn
    by_cases h : 10 ≤ n
    · rw [dec_step h]
      have h1 := ih (n / 10) (by omega) (by omega)
      have h2 := dec_ne_nil (n / 10)
      cases hd : dec (n / 10) with
      | nil => exact absurd hd h2
      | cons x xs => rw [hd] at h1; simpa using h1
    · rw [dec_small (by omega)]
      simp
      omega

theorem String_eq_dotted (v : Version) :
    v.String = dotted (dec v.Major) (dec v.Minor) (dec v.Patch) := by
  simp only [Version.String, dotted, fmtD_eq_dec]

theorem New_dec {a b c : Nat} (ha : a < 2 ^ 64) (hb : b < 2 ^ 64) (hc : c < 2 ^ 64) :
    New (dotted (dec a) (dec b) (dec c)) = .ok ⟨a, b, c⟩ := by
  have pa := ParseUint_digits (dec_digitString a) (by rw [decVal_dec]; exact ha)
  have pb := ParseUint_digits (dec_digitString b) (by rw [decVal_dec]; exact hb)
  have pc := ParseUint_digits (dec_digitString c) (by rw [decVal_dec]; exact hc)
  rw [decVal_dec] at pa pb pc
  exact New_ok (not_mem_dot_of_digits (dec_isDigit a)) (not_mem_dot_of_digits (dec_isDigit b))
    (not_mem_dot_of_digits (dec_isDigit c)) pa pb pc

/-! ## Facts about `Compare` -/

theorem key_lt_iff (x y : Version) :
    x.key < y.key ↔
      x.Major < y.Major ∨ (x.Major = y.Major ∧
        (x.Minor < y.Minor ∨ (x.Minor = y.Minor ∧ x.Patch < y.Patch))) := by
  simp [Version.key, Prod.Lex.lt_iff]

theorem Compare_eq_neg_one (x y : Version) :
    x.Compare y = -1 ↔
      x.Major < y.Major ∨ (x.Major = y.Major ∧
        (x.Minor < y.Minor ∨ (x.Minor = y.Minor ∧ x.Patch < y.Patch))) := by
  unfold Version.Compare
  split_ifs <;> simp <;> omega

theorem Compare_eq_one (x y : Version) :
    x.Compare y = 1 ↔
      y.Major < x.Major ∨ (x.Major = y.Major ∧
        (y.Minor < x.Minor ∨ (x.Minor = y.Minor ∧ y.Patch < x.Patch))) := by
  unfold Version.Compare
  split_ifs <;> simp <;> omega

theorem Compare_eq_zero (x y : Version) :
    x.Compare y = 0 ↔ x.Major = y.Major ∧ x.Minor = y.Minor ∧ x.Patch = y.Patch := by
  unfold Version.Compare
  split_ifs <;> simp <;> omega

theorem Compare_range (x y : Version) :
    x.Compare y = -1 ∨ x.Compare y = 0 ∨ x.Compare y = 1 := by
  unfold Version.Compare
  split_ifs <;> simp

theorem New_wrong_count {s : GoString} (h : (strings.Split s dot).length ≠ 3) :
    New s = .error (str "invalid version string: " ++ s) := by
  unfold New
  rcases hs : strings.Split s dot with _ | ⟨p0, _ | ⟨p1, _ | ⟨p2, _ | ⟨p3, t⟩⟩⟩⟩
  · rfl
  · rfl
  · rfl
  · rw [hs] at h; simp at h
  · rfl

theorem New_ok_count {s : GoString} {v : Version} (h : New s = .ok v) : s.count dot = 2 := by
  by_contra hc
  have hl : (strings.Split s dot).length ≠ 3 := by rw [Split_length]; omega
  rw [New_wrong_count hl] at h
  cases h

theorem New_dotted_ok_inv {a b c : GoString} {v : Version} (h : New (dotted a b c) = .ok v) :
    dot ∉ a ∧ dot ∉ b ∧ dot ∉ c ∧ strconv.ParseUint a = (v.Major, none) ∧
      strconv.ParseUint b = (v.Minor, none) ∧ strconv.ParseUint c = (v.Patch, none) := by
  obtain ⟨ha, hb, hc⟩ := not_mem_of_count_three (New_ok_count h)
  refine ⟨ha, hb, hc, ?_⟩
  rw [New_dotted ha hb hc] at h
  rcases pa : strconv.ParseUint a with ⟨x, _ | ea⟩
  · rcases pb : strconv.ParseUint b with ⟨y, _ | eb⟩
    · rcases pc : strconv.ParseUint c with ⟨z, _ | ec⟩
      · rw [pa, pb, pc] at h
        simp only [Except.ok.injEq] at h
        subst h
        exact ⟨rfl, rfl, rfl⟩
      · rw [pa, pb, pc] at h; cases h
    · rw [pa, pb] at h; cases h
  · rw [pa] at h; cases h

theorem ParseUint_ok_ne_nil {s : GoString} {x : Nat} (h : strconv.ParseUint s = (x, none)) :
    s ≠ [] := by
  intro e
  rw [e, ParseUint_nil] at h
  cases h

theorem not_mem_dot_zeros_append {k : Nat} {s : GoString} (h : dot ∉ s) : dot ∉ zeros k ++ s := by
  intro hm
  rcases List.mem_append.1 hm with hz | hs
  · have := List.eq_of_mem_replicate hz
    revert this; decide
  · exact h hs

/-! ## The claims -/

/-- C1: for every input made of exactly three '.'-separated segments, each a non-empty
string of ASCII digits whose decimal value is at most 2^64-1, `New` returns no error
and the version whose Major, Minor and Patch are the decimal values of the first,
second and third segment. -/
theorem New_three_digit_segments (a b c : GoString)
    (ha : DigitString a) (hb : DigitString b) (hc : DigitString c)
    (va : decVal a ≤ 2 ^ 64 - 1) (vb : decVal b ≤ 2 ^ 64 - 1) (vc : decVal c ≤ 2 ^ 64 - 1) :
    New (dotted a b c) = .ok { Major := decVal a, Minor := decVal b, Patch := decVal c } :=
  New_ok (not_mem_dot_of_digits ha.2) (not_mem_dot_of_digits hb.2) (not_mem_dot_of_digits hc.2)
    (ParseUint_digits ha (by omega)) (ParseUint_digits hb (by omega))
    (ParseUint_digits hc (by omega))

/-- C1 at "1.2.3": the result is Version{1,2,3}. -/
theorem New_three_digit_segments_witness :
    New (str "1.2.3") = .ok { Major := 1, Minor := 2, Patch := 3 } :=
  New_three_digit_segments (str "1") (str "2") (str "3") (by decide) (by decide) (by decide)
    (by decide) (by decide) (by decide)

/-- C2 as stated fails: 2^64 is a non-negative integer, "18446744073709551616" is its
decimal form without leading zeros, and `New` rejects "18446744073709551616.0.0". -/
theorem roundtrip_fails_at_two_pow_64 :
    dec (2 ^ 64) = str "18446744073709551616" ∧ dec 0 = str "0" ∧
      New (dotted (dec (2 ^ 64)) (dec 0) (dec 0)) =
        .error (str "invalid major version: 18446744073709551616") := by
  have h1 : dec (2 ^ 64) = str "18446744073709551616" := by simp [dec]; decide
  have h2 : dec 0 = str "0" := by decide
  refine ⟨h1, h2, ?_⟩
  rw [h1, h2]
  decide

/-- C2, amended: for all integers a, b, c in 0 .. 2^64-1, written in decimal without
superfluous leading zeros, `New` applied to "a.b.c" succeeds, with the version
(a, b, c), and `String` of that version is exactly the string "a.b.c". -/
theorem String_New_roundtrip (a b c : Nat)
    (ha : a ≤ 2 ^ 64 - 1) (hb : b ≤ 2 ^ 64 - 1) (hc : c ≤ 2 ^ 64 - 1) :
    ∃ v, New (dotted (dec a) (dec b) (dec c)) = .ok v ∧
      v = { Major := a, Minor := b, Patch := c } ∧
      v.String = dotted (dec a) (dec b) (dec c) :=
  ⟨⟨a, b, c⟩, New_dec (by omega) (by omega) (by omega), rfl, String_eq_dotted ⟨a, b, c⟩⟩

/-- C2 amended, at a = 1, b = 2, c = 3. -/
theorem String_New_roundtrip_witness :
    ∃ v, New (dotted (dec 1) (dec 2) (dec 3)) = .ok v ∧
      v = { Major := 1, Minor := 2, Patch := 3 } ∧
      v.String = dotted (dec 1) (dec 2) (dec 3) :=
  String_New_roundtrip 1 2 3 (by decide) (by decide) (by decide)

/-- C3: `Compare` is exactly the lexicographic comparison of the triples
(Major, Minor, Patch): -1 when the first triple is lexicographically smaller, 1 when
it is greater, 0 when the three components are pairwise equal, and never any other
value. -/
theorem Compare_lexicographic (x y : Version) :
    (x.Compare y = -1 ↔ x.key < y.key) ∧
    (x.Compare y = 1 ↔ y.key < x.key) ∧
    (x.Compare y = 0 ↔ x.Major = y.Major ∧ x.Minor = y.Minor ∧ x.Patch = y.Patch) ∧
    (x.Compare y = -1 ∨ x.Compare y = 0 ∨ x.Compare y = 1) := by
  refine ⟨?_, ?_, Compare_eq_zero x y, Compare_range x y⟩
  · rw [Compare_eq_neg_one, key_lt_iff]
  · rw [Compare_eq_one, key_lt_iff]
    constructor <;> intro h <;> omega

/-- C4: the split of `s` on '.' has a number of segments other than 3 exactly when `s`
does not contain exactly two '.', and for every such `s` the call `New s` fails with
the message "invalid version string: " followed by `s`. -/
theorem New_rejects_wrong_segment_count (s : GoString) :
    ((strings.Split s dot).length ≠ 3 ↔ s.count dot ≠ 2) ∧
    ((strings.Split s dot).length ≠ 3 →
      New s = .error (str "invalid version string: " ++ s)) := by
  refine ⟨?_, New_wrong_count⟩
  rw [Split_length]
  omega

/-- C4 at "", "hello", "1.2", "1.2.3.4" and "...". -/
theorem New_rejects_wrong_segment_count_witness :
    New (str "") = .error (str "invalid version string: ") ∧
    New (str "hello") = .error (str "invalid version string: hello") ∧
    New (str "1.2") = .error (str "invalid version string: 1.2") ∧
    New (str "1.2.3.4") = .error (str "invalid version string: 1.2.3.4") ∧
    New (str "...") = .error (str "invalid version string: ...") :=
  ⟨(New_rejects_wrong_segment_count (str "")).2 (by decide),
   (New_rejects_wrong_segment_count (str "hello")).2 (by decide),
   (New_rejects_wrong_segment_count (str "1.2")).2 (by decide),
   (New_rejects_wrong_segment_count (str "1.2.3.4")).2 (by decide),
   (New_rejects_wrong_segment_count (str "...")).2 (by decide)⟩

/-- C5: for every input with exactly three '.'-separated segments in which at least
one segment contains a character outside '0'-'9', `New` fails with an error. -/
theorem New_rejects_non_digit (a b c : GoString)
    (ha : dot ∉ a) (hb : dot ∉ b) (hc : dot ∉ c)
    (h : (∃ x ∈ a, ¬ IsDigit x) ∨ (∃ x ∈ b, ¬ IsDigit x) ∨ (∃ x ∈ c, ¬ IsDigit x)) :
    ∃ msg, New (dotted a b c) = .error msg := by
  apply New_error ha hb hc
  rcases h with h | h | h
  · exact Or.inl (ParseUint_not_digit h)
  · exact Or.inr (Or.inl (ParseUint_not_digit h))
  · exact Or.inr (Or.inr (ParseUint_not_digit h))

/-- C5 at "a.2.3", "1.b.3", "1.2.c", "-1.0.0", "0.-1.0", "0.0.-1", "1a.2b.3c", and at
segments with a leading '+', a blank, the prefix "0x" and an underscore. -/
theorem New_rejects_non_digit_witness :
    (∃ msg, New (str "a.2.3") = .error msg) ∧
    (∃ msg, New (str "1.b.3") = .error msg) ∧
    (∃ msg, New (str "1.2.c") = .error msg) ∧
    (∃ msg, New (str "-1.0.0") = .error msg) ∧
    (∃ msg, New (str "0.-1.0") = .error msg) ∧
    (∃ msg, New (str "0.0.-1") = .error msg) ∧
    (∃ msg, New (str "1a.2b.3c") = .error msg) ∧
    (∃ msg, New (str "+1.0.0") = .error msg) ∧
    (∃ msg, New (str "1. 2.3") = .error msg) ∧
    (∃ msg, New (str "0x1.2.3") = .error msg) ∧
    (∃ msg, New (str "1.2.1_0") = .error msg) :=
  ⟨New_rejects_non_digit (str "a") (str "2") (str "3") (by decide) (by decide) (by decide)
      (by decide),
   New_rejects_non_digit (str "1") (str "b") (str "3") (by decide) (by decide) (by decide)
      (by decide),
   New_rejects_non_digit (str "1") (str "2") (str "c") (by decide) (by decide) (by decide)
      (by decide),
   New_rejects_non_digit (str "-1") (str "0") (str "0") (by decide) (by decide) (by decide)
      (by decide),
   New_rejects_non_digit (str "0") (str "-1") (str "0") (by decide) (by decide) (by decide)
      (by decide),
   New_rejects_non_digit (str "0") (str "0") (str "-1") (by decide) (by decide) (by decide)
      (by decide),
   New_rejects_non_digit (str "1a") (str "2b") (str "3c") (by decide) (by decide) (by decide)
      (by decide),
   New_rejects_non_digit (str "+1") (str "0") (str "0") (by decide) (by decide) (by decide)
      (by decide),
   New_rejects_non_digit (str "1") (str " 2") (str "3") (by decide) (by decide) (by decide)
      (by decide),
   New_rejects_non_digit (str "0x1") (str "2") (str "3") (by decide) (by decide) (by decide)
      (by decide),
   New_rejects_non_digit (str "1") (str "2") (str "1_0") (by decide) (by decide) (by decide)
      (by decide)⟩

/-- C6: for every input with exactly three '.'-separated segments in which at least
one segment is the empty string, `New` fails with an error. -/
theorem New_rejects_empty_segment (a b c : GoString)
    (ha : dot ∉ a) (hb : dot ∉ b) (hc : dot ∉ c)
    (h : a = [] ∨ b = [] ∨ c = []) :
    ∃ msg, New (dotted a b c) = .error msg := by
  apply New_error ha hb hc
  rcases h with h | h | h
  · exact Or.inl ⟨_, _, h ▸ ParseUint_nil⟩
  · exact Or.inr (Or.inl ⟨_, _, h ▸ ParseUint_nil⟩)
  · exact Or.inr (Or.inr ⟨_, _, h ▸ ParseUint_nil⟩)

/-- C6 at ".1.2", "1..2" and "1.2.". -/
theorem New_rejects_empty_segment_witness :
    (∃ msg, New (str ".1.2") = .error msg) ∧
    (∃ msg, New (str "1..2") = .error msg) ∧
    (∃ msg, New (str "1.2.") = .error msg) :=
  ⟨New_rejects_empty_segment (str "") (str "1") (str "2") (by decide) (by decide) (by decide)
      (by decide),
   New_rejects_empty_segment (str "1") (str "") (str "2") (by decide) (by decide) (by decide)
      (by decide),
   New_rejects_empty_segment (str "1") (str "2") (str "") (by decide) (by decide) (by decide)
      (by decide)⟩

/-- C7: leading zeros are accepted and ignored. Zeros put in front of non-empty digit
segments of value at most 2^64-1 give the version of the values of the segments;
"01.002.0003" gives Version{1,2,3}; and whenever "a.b.c" is accepted, putting zeros in
front of any of its segments gives the same version. -/
theorem New_ignores_leading_zeros (a b c : GoString) (k1 k2 k3 : Nat) :
    (DigitString a → DigitString b → DigitString c →
      decVal a ≤ 2 ^ 64 - 1 → decVal b ≤ 2 ^ 64 - 1 → decVal c ≤ 2 ^ 64 - 1 →
      New (dotted (zeros k1 ++ a) (zeros k2 ++ b) (zeros k3 ++ c)) =
        .ok { Major := decVal a, Minor := decVal b, Patch := decVal c }) ∧
    (∀ v, New (dotted a b c) = .ok v →
      New (dotted (zeros k1 ++ a) (zeros k2 ++ b) (zeros k3 ++ c)) = .ok v) ∧
    New (str "01.002.0003") = .ok { Major := 1, Minor := 2, Patch := 3 } := by
  have key : ∀ v, New (dotted a b c) = .ok v →
      New (dotted (zeros k1 ++ a) (zeros k2 ++ b) (zeros k3 ++ c)) = .ok v := by
    intro v h
    obtain ⟨ha, hb, hc, pa, pb, pc⟩ := New_dotted_ok_inv h
    exact New_ok (not_mem_dot_zeros_append ha) (not_mem_dot_zeros_append hb)
      (not_mem_dot_zeros_append hc)
      ((ParseUint_zeros k1 (ParseUint_ok_ne_nil pa)).trans pa)
      ((ParseUint_zeros k2 (ParseUint_ok_ne_nil pb)).trans pb)
      ((ParseUint_zeros k3 (ParseUint_ok_ne_nil pc)).trans pc)
  refine ⟨?_, key, by decide⟩
  intro ha hb hc va vb vc
  apply key
  exact New_ok (not_mem_dot_of_digits ha.2) (not_mem_dot_of_digits hb.2)
    (not_mem_dot_of_digits hc.2) (ParseUint_digits ha (by omega))
    (ParseUint_digits hb (by omega)) (ParseUint_digits hc (by omega))

/-- C7 at the segments "1", "2", "3" with one, two and three zeros in front, and at the
accepted string "7.08.9" with zeros in front of each segment. -/
theorem New_ignores_leading_zeros_witness :
    New (str "01.002.0003") = .ok { Major := 1, Minor := 2, Patch := 3 } ∧
    New (str "007.08.0009") = .ok { Major := 7, Minor := 8, Patch := 9 } :=
  ⟨(New_ignores_leading_zeros (str "1") (str "2") (str "3") 1 2 3).1
      (by decide) (by decide) (by decide) (by decide) (by decide) (by decide),
   (New_ignores_leading_zeros (str "7") (str "08") (str "9") 2 0 3).2.1 _ (by decide)⟩

/-- C8: for every version, `String` is dec(Major) + "." + dec(Minor) + "." + dec(Patch),
where dec(n) is a non-empty digit string of value n that is "0" for n = 0 and does not
start with '0' otherwise; the result contains exactly two '.' and otherwise only
ASCII digits; Version{1,2,3} gives "1.2.3" and Version{0,0,0} gives "0.0.0". -/
theorem String_canonical (v : Version) :
    v.String = dec v.Major ++ [dot] ++ dec v.Minor ++ [dot] ++ dec v.Patch ∧
    (∀ n, DigitString (dec n) ∧ decVal (dec n) = n ∧
      (n = 0 → dec n = [48]) ∧ (0 < n → (dec n).head? ≠ some 48)) ∧
    v.String.count dot = 2 ∧
    (∀ x ∈ v.String, x = dot ∨ IsDigit x) ∧
    (Version.mk 1 2 3).String = str "1.2.3" ∧
    (Version.mk 0 0 0).String = str "0.0.0" := by
  have hz : ∀ n, (dec n).count dot = 0 := fun n =>
    List.count_eq_zero.2 (not_mem_dot_of_digits (dec_isDigit n))
  refine ⟨?_, ?_, ?_, ?_, ?_, ?_⟩
  · rw [String_eq_dotted]; simp [dotted]
  · intro n
    exact ⟨dec_digitString n, decVal_dec n, fun h => by rw [h]; rfl, dec_head_ne_zero n⟩
  · rw [String_eq_dotted]
    simp [dotted, List.count_append, hz]
  · intro x hx
    rw [String_eq_dotted] at hx
    simp only [dotted, List.mem_append, List.mem_cons] at hx
    rcases hx with h | h | h | h | h
    · exact Or.inr (dec_isDigit _ x h)
    · exact Or.inl h
    · exact Or.inr (dec_isDigit _ x h)
    · exact Or.inl h
    · exact Or.inr (dec_isDigit _ x h)
  · rw [String_eq_dotted]; simp [dec]; decide
  · rw [String_eq_dotted]; simp [dec]; decide

/-- C9: trichotomy. For all versions x, y exactly one of OlderThan, Equals, NewerThan is
true, and exactly one of Compare = -1, Compare = 0, Compare = 1 holds. -/
theorem Compare_trichotomy (x y : Version) :
    ((x.OlderThan y = true ∧ x.Equals y = false ∧ x.NewerThan y = false) ∨
     (x.OlderThan y = false ∧ x.Equals y = true ∧ x.NewerThan y = false) ∨
     (x.OlderThan y = false ∧ x.Equals y = false ∧ x.NewerThan y = true)) ∧
    ((x.Compare y = -1 ∧ x.Compare y ≠ 0 ∧ x.Compare y ≠ 1) ∨
     (x.Compare y ≠ -1 ∧ x.Compare y = 0 ∧ x.Compare y ≠ 1) ∨
     (x.Compare y ≠ -1 ∧ x.Compare y ≠ 0 ∧ x.Compare y = 1)) := by
  simp only [Version.OlderThan, Version.Equals, Version.NewerThan]
  rcases Compare_range x y with h | h | h <;> rw [h] <;> decide

/-- C10: transitivity. If Compare(x,y) = -1 and Compare(y,z) = -1 then
Compare(x,z) = -1, and if OlderThanOrEquals(x,y) and OlderThanOrEquals(y,z) then
OlderThanOrEquals(x,z). -/
theorem Compare_transitive (x y z : Version) :
    (x.Compare y = -1 → y.Compare z = -1 → x.Compare z = -1) ∧
    (x.OlderThanOrEquals y = true → y.OlderThanOrEquals z = true →
      x.OlderThanOrEquals z = true) := by
  simp only [Version.OlderThanOrEquals, Bool.or_eq_true, beq_iff_eq, Compare_eq_neg_one,
    Compare_eq_zero]
  constructor <;> intro h1 h2 <;> omega

/-- C10 at 1.0.0, 1.2.0, 2.0.0 for the strict order and at 1.2.3, 1.2.3, 1.2.4 for the
non-strict one. -/
theorem Compare_transitive_witness :
    (Version.mk 1 0 0).Compare (Version.mk 2 0 0) = -1 ∧
    (Version.mk 1 2 3).OlderThanOrEquals (Version.mk 1 2 4) = true :=
  ⟨(Compare_transitive ⟨1, 0, 0⟩ ⟨1, 2, 0⟩ ⟨2, 0, 0⟩).1 (by decide) (by decide),
   (Compare_transitive ⟨1, 2, 3⟩ ⟨1, 2, 3⟩ ⟨1, 2, 4⟩).2 (by decide) (by decide)⟩

/-- C8 at zero, whose rendering is "0", and at 7, whose rendering does not start
with '0'. -/
theorem String_canonical_witness :
    dec 0 = [48] ∧ (dec 7).head? ≠ some 48 :=
  ⟨((String_canonical ⟨0, 0, 0⟩).2.1 0).2.2.1 rfl,
   ((String_canonical ⟨1, 2, 3⟩).2.1 7).2.2.2 (by decide)⟩

/-! ## Accepted segments -/

theorem digitVal_lt_ten {c d : Nat} (h : strconv.digitVal c = some d) (hd : d < 10) :
    IsDigit c ∧ d = c - 48 := by
  by_cases hc : IsDigit c
  · rw [digitVal_of_digit hc] at h
    exact ⟨hc, (Option.some.inj h).symm⟩
  · rcases digitVal_of_not_digit hc with e | ⟨d2, e, h10⟩
    · rw [e] at h; cases h
    · rw [e] at h
      have := Option.some.inj h
      omega

theorem parseLoop_ok_inv (cs : GoString) :
    ∀ n x, n < 2 ^ 64 → strconv.parseLoop cs n = (x, none) →
      (∀ c ∈ cs, IsDigit c) ∧ x = decFrom n cs ∧ x < 2 ^ 64 := by
  induction cs with
  | nil =>
    intro n x hn h
    simp only [strconv.parseLoop, Prod.mk.injEq, and_true] at h
    subst h
    exact ⟨by simp, rfl, hn⟩
  | cons c cs ih =>
    intro n x hn h
    rw [strconv.parseLoop] at h
    cases hdv : strconv.digitVal c with
    | none => rw [hdv] at h; cases h
    | some d =>
      rw [hdv] at h
      simp only [] at h
      by_cases h1 : d ≥ 10
      · rw [if_pos h1] at h; cases h
      · rw [if_neg h1] at h
        by_cases h2 : n ≥ strconv.cutoff
        · rw [if_pos h2] at h; cases h
        · rw [if_neg h2] at h
          by_cases h3 : (n * 10 % 2 ^ 64 + d) % 2 ^ 64 < n * 10 % 2 ^ 64 ∨
              (n * 10 % 2 ^ 64 + d) % 2 ^ 64 > strconv.maxVal
          · rw [if_pos h3] at h; cases h
          · rw [if_neg h3] at h
            obtain ⟨hc, hd⟩ := digitVal_lt_ten hdv (by omega)
            have e : (n * 10 % 2 ^ 64 + d) % 2 ^ 64 = n * 10 + (c - 48) := by
              simp only [strconv.cutoff, strconv.maxUint64, strconv.maxVal] at h2 h3
              norm_num at h2 h3 ⊢
              omega
            rw [e] at h
            have hlt : n * 10 + (c - 48) < 2 ^ 64 := by
              rw [← e]; exact Nat.mod_lt _ (by norm_num)
            obtain ⟨i1, i2, i3⟩ := ih _ x hlt h
            refine ⟨?_, ?_, i3⟩
            · intro y hy
              rcases List.mem_cons.1 hy with e2 | e2
              · rw [e2]; exact hc
              · exact i1 y e2
            · rw [decFrom_cons]; exact i2

theorem ParseUint_ok_inv {s : GoString} {x : Nat} (h : strconv.ParseUint s = (x, none)) :
    DigitString s ∧ decVal s = x ∧ x < 2 ^ 64 := by
  have hne : s ≠ [] := ParseUint_ok_ne_nil h
  unfold strconv.ParseUint at h
  rw [if_neg hne] at h
  obtain ⟨h1, h2, h3⟩ := parseLoop_ok_inv s 0 x (by norm_num) h
  exact ⟨⟨hne, h1⟩, h2.symm, h3⟩

theorem ParseUint_ok_iff (s : GoString) (x : Nat) :
    strconv.ParseUint s = (x, none) ↔ ValidSegment s ∧ decVal s = x := by
  constructor
  · intro h
    obtain ⟨h1, h2, h3⟩ := ParseUint_ok_inv h
    exact ⟨⟨h1, by omega⟩, h2⟩
  · rintro ⟨⟨h1, h2⟩, h3⟩
    rw [← h3]
    exact ParseUint_digits h1 (by omega)

theorem ParseUint_invalid {s : GoString} (h : ¬ ValidSegment s) :
    ∃ v e, strconv.ParseUint s = (v, some e) := by
  rcases hp : strconv.ParseUint s with ⟨x, _ | e⟩
  · exact absurd ((ParseUint_ok_iff s x).1 hp).1 h
  · exact ⟨_, _, rfl⟩

theorem ParseUint_valid {s : GoString} (h : ValidSegment s) :
    strconv.ParseUint s = (decVal s, none) :=
  (ParseUint_ok_iff s _).2 ⟨h, rfl⟩

theorem count_two_dotted {s : GoString} (h : s.count dot = 2) :
    ∃ a b c, s = dotted a b c ∧ dot ∉ a ∧ dot ∉ b ∧ dot ∉ c := by
  have m1 : dot ∈ s := List.count_pos_iff.1 (by omega)
  obtain ⟨a, r, e1, ha⟩ := exists_first_sep m1
  subst e1
  have hr : r.count dot = 1 := by
    simp only [List.count_append, List.count_cons_self, List.count_eq_zero_of_not_mem ha] at h
    omega
  have m2 : dot ∈ r := List.count_pos_iff.1 (by omega)
  obtain ⟨b, c, e2, hb⟩ := exists_first_sep m2
  subst e2
  have hc : c.count dot = 0 := by
    simp only [List.count_append, List.count_cons_self, List.count_eq_zero_of_not_mem hb] at hr
    omega
  exact ⟨a, b, c, rfl, ha, hb, List.count_eq_zero.1 hc⟩

theorem New_ok_dotted {s : GoString} {v : Version} (h : New s = .ok v) :
    ∃ a b c, s = dotted a b c ∧ dot ∉ a ∧ dot ∉ b ∧ dot ∉ c ∧
      strconv.ParseUint a = (v.Major, none) ∧ strconv.ParseUint b = (v.Minor, none) ∧
      strconv.ParseUint c = (v.Patch, none) := by
  obtain ⟨a, b, c, e, _, _, _⟩ := count_two_dotted (New_ok_count h)
  subst e
  obtain ⟨ha, hb, hc, pa, pb, pc⟩ := New_dotted_ok_inv h
  exact ⟨a, b, c, rfl, ha, hb, hc, pa, pb, pc⟩

theorem New_error_major {a b c : GoString} (ha : dot ∉ a) (hb : dot ∉ b) (hc : dot ∉ c)
    (h : ¬ ValidSegment a) :
    New (dotted a b c) = .error (str "invalid major version: " ++ a) := by
  obtain ⟨v, e, pa⟩ := ParseUint_invalid h
  rw [New_dotted ha hb hc, pa]

theorem New_error_minor {a b c : GoString} (ha : dot ∉ a) (hb : dot ∉ b) (hc : dot ∉ c)
    (h1 : ValidSegment a) (h : ¬ ValidSegment b) :
    New (dotted a b c) = .error (str "invalid minor version: " ++ b) := by
  obtain ⟨v, e, pb⟩ := ParseUint_invalid h
  rw [New_dotted ha hb hc, ParseUint_valid h1, pb]

theorem New_error_patch {a b c : GoString} (ha : dot ∉ a) (hb : dot ∉ b) (hc : dot ∉ c)
    (h1 : ValidSegment a) (h2 : ValidSegment b) (h : ¬ ValidSegment c) :
    New (dotted a b c) = .error (str "invalid patch version: " ++ c) := by
  obtain ⟨v, e, pc⟩ := ParseUint_invalid h
  rw [New_dotted ha hb hc, ParseUint_valid h1, ParseUint_valid h2, pc]

theorem New_String (v : Version) (hv : v.InRange) : New v.String = .ok v := by
  rw [String_eq_dotted]
  exact New_dec hv.1 hv.2.1 hv.2.2

theorem Compare_swap (x y : Version) : y.Compare x = -(x.Compare y) := by
  unfold Version.Compare
  split_ifs <;> first | rfl | omega

/-! ## The claims, continued -/

/-- C11: antisymmetry. If OlderThanOrEquals(x,y) and OlderThanOrEquals(y,x) are both
true then x and y have equal Major, equal Minor and equal Patch, and Equals(x,y) is
true. -/
theorem OlderThanOrEquals_antisymm (x y : Version)
    (h1 : x.OlderThanOrEquals y = true) (h2 : y.OlderThanOrEquals x = true) :
    x.Major = y.Major ∧ x.Minor = y.Minor ∧ x.Patch = y.Patch ∧ x.Equals y = true := by
  simp only [Version.OlderThanOrEquals, Version.Equals, Bool.or_eq_true, beq_iff_eq,
    Compare_eq_neg_one, Compare_eq_zero] at h1 h2 ⊢
  omega

/-- C11 at x = y = 1.2.3. -/
theorem OlderThanOrEquals_antisymm_witness :
    (1 : Nat) = 1 ∧ (2 : Nat) = 2 ∧ (3 : Nat) = 3 ∧
      (Version.mk 1 2 3).Equals (Version.mk 1 2 3) = true :=
  OlderThanOrEquals_antisymm ⟨1, 2, 3⟩ ⟨1, 2, 3⟩ (by decide) (by decide)

/-- C12: reflexivity. For every version x, Compare(x,x) = 0, hence Equals(x,x),
OlderThanOrEquals(x,x) and NewerThanOrEquals(x,x) are true and OlderThan(x,x) and
NewerThan(x,x) are false. -/
theorem Compare_self (x : Version) :
    x.Compare x = 0 ∧ x.Equals x = true ∧ x.OlderThanOrEquals x = true ∧
      x.NewerThanOrEquals x = true ∧ x.OlderThan x = false ∧ x.NewerThan x = false := by
  have h : x.Compare x = 0 := (Compare_eq_zero x x).2 ⟨rfl, rfl, rfl⟩
  simp only [Version.Equals, Version.OlderThanOrEquals, Version.NewerThanOrEquals,
    Version.OlderThan, Version.NewerThan, h]
  decide

/-- C13: the five derived predicates are consistent with Compare. OlderThan(x,y) is
true iff Compare(x,y) = -1; OlderThanOrEquals(x,y) iff Compare(x,y) is -1 or 0;
Equals(x,y) iff Compare(x,y) = 0; NewerThanOrEquals(x,y) iff Compare(x,y) is 0 or 1;
NewerThan(x,y) iff Compare(x,y) = 1. -/
theorem predicates_consistent_with_Compare (x y : Version) :
    (x.OlderThan y = true ↔ x.Compare y = -1) ∧
    (x.OlderThanOrEquals y = true ↔ (x.Compare y = -1 ∨ x.Compare y = 0)) ∧
    (x.Equals y = true ↔ x.Compare y = 0) ∧
    (x.NewerThanOrEquals y = true ↔ (x.Compare y = 0 ∨ x.Compare y = 1)) ∧
    (x.NewerThan y = true ↔ x.Compare y = 1) := by
  simp [Version.OlderThan, Version.OlderThanOrEquals, Version.Equals,
    Version.NewerThanOrEquals, Version.NewerThan]

/-- C14: no pre-release or build-metadata suffix is supported. For every string s that
`New` accepts and every suffix t that begins with '-' or '+', `New` fails on s
followed by t, whether or not t contains further '.' characters. -/
theorem New_rejects_suffix (s t : GoString) (v : Version)
    (hs : New s = .ok v) (ht : t.head? = some 45 ∨ t.head? = some 43) :
    ∃ msg, New (s ++ t) = .error msg := by
  obtain ⟨a, b, c, e, ha, hb, hc, _, _, _⟩ := New_ok_dotted hs
  subst e
  have hcat : dotted a b c ++ t = dotted a b (c ++ t) := by simp [dotted]
  by_cases hd : dot ∈ t
  · have hcount : (dotted a b c ++ t).count dot ≠ 2 := by
      have h2 := New_ok_count hs
      have h3 : 0 < t.count dot := List.count_pos_iff.2 hd
      rw [List.count_append]
      omega
    have hl : (strings.Split (dotted a b c ++ t) dot).length ≠ 3 := by
      rw [Split_length]; omega
    exact ⟨_, New_wrong_count hl⟩
  · rw [hcat]
    have hct : dot ∉ c ++ t := by
      intro hm
      rcases List.mem_append.1 hm with h | h
      · exact hc h
      · exact hd h
    apply New_error ha hb hct
    refine Or.inr (Or.inr (ParseUint_not_digit ?_))
    cases t with
    | nil => simp at ht
    | cons x xs =>
      refine ⟨x, by simp, ?_⟩
      simp only [List.head?_cons, Option.some.injEq] at ht
      rcases ht with h | h <;> rw [h] <;> decide

/-- C14 at "1.2.3" followed by "-alpha", "-rc.1" and "+build.5". -/
theorem New_rejects_suffix_witness :
    (∃ msg, New (str "1.2.3-alpha") = .error msg) ∧
    (∃ msg, New (str "1.2.3-rc.1") = .error msg) ∧
    (∃ msg, New (str "1.2.3+build.5") = .error msg) :=
  ⟨New_rejects_suffix (str "1.2.3") (str "-alpha") ⟨1, 2, 3⟩ (by decide) (by decide),
   New_rejects_suffix (str "1.2.3") (str "-rc.1") ⟨1, 2, 3⟩ (by decide) (by decide),
   New_rejects_suffix (str "1.2.3") (str "+build.5") ⟨1, 2, 3⟩ (by decide) (by decide)⟩

/-- C15 as stated fails: `New` accepts "01.2.3", whose first identifier "01" is neither
"0" nor a digit string that does not start with '0'. -/
theorem New_accepts_leading_zero :
    New (str "01.2.3") = .ok { Major := 1, Minor := 2, Patch := 3 } ∧
    strings.Split (str "01.2.3") dot = [str "01", str "2", str "3"] ∧
    ¬ SemVerNumeric (str "01") := by
  decide

/-- C15, amended: every string that `New` accepts has exactly three '.'-separated
segments, each a non-empty string of ASCII digits (leading zeros allowed) of value at
most 2^64-1, and the version holds these values; and `New` accepts every core version
of Semantic Versioning 2.0.0 whose three numeric identifiers have values at most
2^64-1. -/
theorem New_accepts_digit_segments (s : GoString) :
    (∀ v, New s = .ok v →
      ∃ a b c, strings.Split s dot = [a, b, c] ∧ s = dotted a b c ∧
        ValidSegment a ∧ ValidSegment b ∧ ValidSegment c ∧
        v = { Major := decVal a, Minor := decVal b, Patch := decVal c }) ∧
    (∀ a b c, s = dotted a b c → SemVerNumeric a → SemVerNumeric b → SemVerNumeric c →
      decVal a ≤ 2 ^ 64 - 1 → decVal b ≤ 2 ^ 64 - 1 → decVal c ≤ 2 ^ 64 - 1 →
      New s = .ok { Major := decVal a, Minor := decVal b, Patch := decVal c }) := by
  have hsv : ∀ x : GoString, SemVerNumeric x → DigitString x := by
    intro x hx
    rcases hx with h | h
    · rw [h]; decide
    · exact h.1
  constructor
  · intro v h
    obtain ⟨a, b, c, e, ha, hb, hc, pa, pb, pc⟩ := New_ok_dotted h
    have qa := (ParseUint_ok_iff a _).1 pa
    have qb := (ParseUint_ok_iff b _).1 pb
    have qc := (ParseUint_ok_iff c _).1 pc
    refine ⟨a, b, c, ?_, e, qa.1, qb.1, qc.1, ?_⟩
    · rw [e]; exact Split_three ha hb hc
    · rw [qa.2, qb.2, qc.2]
  · intro a b c e ha hb hc va vb vc
    rw [e]
    have da := hsv a ha
    have db := hsv b hb
    have dc := hsv c hc
    exact New_ok (not_mem_dot_of_digits da.2) (not_mem_dot_of_digits db.2)
      (not_mem_dot_of_digits dc.2) (ParseUint_valid ⟨da, va⟩) (ParseUint_valid ⟨db, vb⟩)
      (ParseUint_valid ⟨dc, vc⟩)

/-- C15 amended, at the accepted string "01.2.3" and at the core version "1.0.20". -/
theorem New_accepts_digit_segments_witness :
    (∃ a b c, strings.Split (str "01.2.3") dot = [a, b, c] ∧ str "01.2.3" = dotted a b c ∧
        ValidSegment a ∧ ValidSegment b ∧ ValidSegment c ∧
        Version.mk 1 2 3 = { Major := decVal a, Minor := decVal b, Patch := decVal c }) ∧
    New (str "1.0.20") = .ok { Major := 1, Minor := 0, Patch := 20 } :=
  ⟨(New_accepts_digit_segments (str "01.2.3")).1 ⟨1, 2, 3⟩ (by decide),
   (New_accepts_digit_segments (str "1.0.20")).2 (str "1") (str "0") (str "20") (by decide)
      (by decide) (by decide) (by decide) (by decide) (by decide) (by decide)⟩

/-- C16: segments are validated in the order major, minor, patch and the error names
the first invalid segment. For every three-segment input: if the first segment is
invalid the message is "invalid major version: " followed by that segment, whatever
the other two are; if the first is valid and the second invalid it is
"invalid minor version: " followed by the second segment; if only the third is
invalid it is "invalid patch version: " followed by the third segment. -/
theorem New_names_first_invalid_segment (a b c : GoString)
    (ha : dot ∉ a) (hb : dot ∉ b) (hc : dot ∉ c) :
    (¬ ValidSegment a →
      New (dotted a b c) = .error (str "invalid major version: " ++ a)) ∧
    (ValidSegment a → ¬ ValidSegment b →
      New (dotted a b c) = .error (str "invalid minor version: " ++ b)) ∧
    (ValidSegment a → ValidSegment b → ¬ ValidSegment c →
      New (dotted a b c) = .error (str "invalid patch version: " ++ c)) :=
  ⟨New_error_major ha hb hc, New_error_minor ha hb hc, New_error_patch ha hb hc⟩

/-- C16 at "a.b.c", which reports the major segment "a", at "1.b.c", which reports the
minor segment "b", and at "1.2.c", which reports the patch segment "c". -/
theorem New_names_first_invalid_segment_witness :
    New (str "a.b.c") = .error (str "invalid major version: a") ∧
    New (str "1.b.c") = .error (str "invalid minor version: b") ∧
    New (str "1.2.c") = .error (str "invalid patch version: c") :=
  ⟨(New_names_first_invalid_segment (str "a") (str "b") (str "c") (by decide) (by decide)
      (by decide)).1 (by decide),
   (New_names_first_invalid_segment (str "1") (str "b") (str "c") (by decide) (by decide)
      (by decide)).2.1 (by decide) (by decide),
   (New_names_first_invalid_segment (str "1") (str "2") (str "c") (by decide) (by decide)
      (by decide)).2.2 (by decide) (by decide) (by decide)⟩

/-- C17: round trip New after String. For every version v with each component in
0 .. 2^64-1, New(String(v)) succeeds and returns v; consequently String is injective
on such versions. -/
theorem New_String_roundtrip (v w : Version) :
    (v.InRange → New v.String = .ok v) ∧
    (v.InRange → w.InRange → v.String = w.String → v = w) := by
  refine ⟨New_String v, ?_⟩
  intro hv hw e
  have h1 := New_String v hv
  have h2 := New_String w hw
  rw [e, h2] at h1
  exact (Except.ok.inj h1).symm

/-- C17 at the version 1.20.18446744073709551615. -/
theorem New_String_roundtrip_witness :
    New (Version.mk 1 20 18446744073709551615).String =
      .ok (Version.mk 1 20 18446744073709551615) :=
  (New_String_roundtrip ⟨1, 20, 18446744073709551615⟩ ⟨0, 0, 0⟩).1 (by decide)

/-- C18: the 64-bit range boundary. A segment of value exactly 2^64-1 is accepted and
stored unchanged, in each of the three positions; for every three-segment all-digit
input in which some segment has a value of 2^64 or more, `New` fails with an error;
"18446744073709551616.0.0" is rejected as an invalid major version. -/
theorem New_uint64_boundary (a b c : GoString) :
    New (str "18446744073709551615.18446744073709551615.18446744073709551615") =
      .ok { Major := 2 ^ 64 - 1, Minor := 2 ^ 64 - 1, Patch := 2 ^ 64 - 1 } ∧
    (DigitString a → DigitString b → DigitString c →
      (2 ^ 64 ≤ decVal a ∨ 2 ^ 64 ≤ decVal b ∨ 2 ^ 64 ≤ decVal c) →
      ∃ msg, New (dotted a b c) = .error msg) ∧
    New (str "18446744073709551616.0.0") =
      .error (str "invalid major version: 18446744073709551616") := by
  refine ⟨by decide, ?_, by decide⟩
  intro ha hb hc h
  apply New_error (not_mem_dot_of_digits ha.2) (not_mem_dot_of_digits hb.2)
    (not_mem_dot_of_digits hc.2)
  have big : ∀ s : GoString, 2 ^ 64 ≤ decVal s → ∃ v e, strconv.ParseUint s = (v, some e) := by
    intro s hs
    apply ParseUint_invalid
    intro hv
    have := hv.2
    omega
  rcases h with h | h | h
  · exact Or.inl (big a h)
  · exact Or.inr (Or.inl (big b h))
  · exact Or.inr (Or.inr (big c h))

/-- C18 at "18446744073709551616.0.0", "0.18446744073709551616.0" and
"0.0.99999999999999999999". -/
theorem New_uint64_boundary_witness :
    (∃ msg, New (str "18446744073709551616.0.0") = .error msg) ∧
    (∃ msg, New (str "0.18446744073709551616.0") = .error msg) ∧
    (∃ msg, New (str "0.0.99999999999999999999") = .error msg) :=
  ⟨(New_uint64_boundary (str "18446744073709551616") (str "0") (str "0")).2.1
      (by decide) (by decide) (by decide) (by decide),
   (New_uint64_boundary (str "0") (str "18446744073709551616") (str "0")).2.1
      (by decide) (by decide) (by decide) (by decide),
   (New_uint64_boundary (str "0") (str "0") (str "99999999999999999999")).2.1
      (by decide) (by decide) (by decide) (by decide)⟩

/-- C19: swapping the operands negates the result. Compare(y,x) = -Compare(x,y); hence
OlderThan(x,y) is true iff NewerThan(y,x) is true, and OlderThanOrEquals(x,y) iff
NewerThanOrEquals(y,x). -/
theorem Compare_swap_negates (x y : Version) :
    y.Compare x = -(x.Compare y) ∧
    (x.OlderThan y = true ↔ y.NewerThan x = true) ∧
    (x.OlderThanOrEquals y = true ↔ y.NewerThanOrEquals x = true) := by
  have h := Compare_swap x y
  simp only [Version.OlderThan, Version.NewerThan, Version.OlderThanOrEquals,
    Version.NewerThanOrEquals, Bool.or_eq_true, beq_iff_eq, h]
  refine ⟨trivial, ?_, ?_⟩ <;> constructor <;> intro h2 <;> omega

/-- C20: the non-strict predicates are the negations of the opposite strict ones, and
the disjunction of the strict one with equality. OlderThanOrEquals(x,y) =
not NewerThan(x,y), NewerThanOrEquals(x,y) = not OlderThan(x,y),
OlderThanOrEquals(x,y) = (OlderThan(x,y) or Equals(x,y)) and NewerThanOrEquals(x,y) =
(NewerThan(x,y) or Equals(x,y)). -/
theorem non_strict_predicates (x y : Version) :
    x.OlderThanOrEquals y = !x.NewerThan y ∧
    x.NewerThanOrEquals y = !x.OlderThan y ∧
    x.OlderThanOrEquals y = (x.OlderThan y || x.Equals y) ∧
    x.NewerThanOrEquals y = (x.NewerThan y || x.Equals y) := by
  simp only [Version.OlderThanOrEquals, Version.NewerThanOrEquals, Version.OlderThan,
    Version.NewerThan, Version.Equals]
  rcases Compare_range x y with h | h | h <;> rw [h] <;> decide

end Semantika
